import Mathlib

/-!
# Verification of the m3 bit-packed output stream and database options

This file gives a shallow embedding of two components of the m3 repository:

* `src/encoding/ostream.go` — the bit-packed output stream (`ostream`), with
  its operations `WriteBit`, `WriteByte`, `WriteBytes`, `WriteBits`, `Reset`,
  `Clone`, `Len`, `Empty`, and the internal helpers `grow` and `fillUnused`.
* `src/unnamed/part_000` (package `storage`) — the `dbOptions` configuration
  value, its defaults and its functional setters/getters.

Modelling conventions:

* A Go `byte` is a `Nat`; byte arithmetic wraps with an explicit `% 256`
  exactly where Go's `byte` type wraps (shifts and conversions).
  A Go `uint64` is a `Nat` reduced `% 2 ^ 64` where Go wraps.
* The Go slice `rawBuffer []byte` is modelled by two fields: `backing`, the
  contents of the underlying array that have been materialized so far, and
  `len`, the slice's length field (`len(os.rawBuffer)`).  Go's
  `append(os.rawBuffer, v)` writes in place at index `len` when the
  underlying array already extends past `len` (which happens after `Clone`,
  since `Clone` copies the slice header and shares the array), and otherwise
  materializes a new slot.  `grow` reflects exactly that.  The pooled branch
  `pool.AppendByte` has the same slice semantics.  For a stream that is sole
  owner of its array (`len = backing.length`), `grow` is a plain append and
  the model coincides with the naive functional one.
* `pos` is a Go `int` that the code only ever assigns the values `0`–`8`;
  it is modelled as a `Nat` (the claims include `0 ≤ pos` which is then
  automatic).  `numBits` in `WriteBits` is a genuine `Int`, since one claim
  is about negative arguments.
* `time.Duration` is an `Int` counting nanoseconds, as in Go's time package.
* Pools (`bytesPool`), logging, metrics and the other pooled collaborators
  stored in `dbOptions` carry no logical state relevant to the claims and
  are not modelled (the spec declares pooling orthogonal to correctness).
-/

namespace M3

/-! ## Time durations (Go `time` package units, in nanoseconds) -/

def Nanosecond : Int := 1

def Microsecond : Int := 1000 * Nanosecond

def Millisecond : Int := 1000 * Microsecond

def Second : Int := 1000 * Millisecond

def Minute : Int := 60 * Second

def Hour : Int := 60 * Minute

/-! ## Database options (`src/unnamed/part_000`, package `storage`) -/

/-- defaultBlockSize is the default block size (2h). -/
def defaultBlockSize : Int := 2 * Hour

/-- defaultBufferFuture is the default buffer future limit (2m). -/
def defaultBufferFuture : Int := 2 * Minute

/-- defaultBufferPast is the default buffer past limit (10m). -/
def defaultBufferPast : Int := 10 * Minute

/-- defaultBufferDrain is the default buffer drain (1m). -/
def defaultBufferDrain : Int := 1 * Minute

/-- defaultRetentionPeriod is how long data is kept in memory by default. -/
def defaultRetentionPeriod : Int := 2 * 24 * Hour

/-- defaultBufferBucketAllocSize is the allocation size for buffer buckets. -/
def defaultBufferBucketAllocSize : Int := 256

/-- defaultDatabaseBlockAllocSize is the allocation size for database blocks. -/
def defaultDatabaseBlockAllocSize : Int := 1024

/-- defaultMaxFlushRetries is the default number of retries when flush fails. -/
def defaultMaxFlushRetries : Int := 3

/-- The option fields of `dbOptions` that carry configuration values.
The function-typed and pool fields of the Go struct hold no logical
configuration state relevant to the claims and are omitted. -/
structure DbOptions where
  blockSize : Int
  bufferFuture : Int
  bufferPast : Int
  bufferDrain : Int
  bufferBucketAllocSize : Int
  databaseBlockAllocSize : Int
  retentionPeriod : Int
  maxFlushRetries : Int
deriving Repr, DecidableEq

namespace DbOptions

/-- EncodingTszPooled copies the options and sets the two allocation sizes
(the remainder of the Go function initializes pools, not configuration). -/
def EncodingTszPooled (o : DbOptions) (bucketSize blockAllocSize : Int) : DbOptions :=
  { o with bufferBucketAllocSize := bucketSize, databaseBlockAllocSize := blockAllocSize }

def BlockSize (o : DbOptions) (value : Int) : DbOptions := { o with blockSize := value }

def GetBlockSize (o : DbOptions) : Int := o.blockSize

def BufferFuture (o : DbOptions) (value : Int) : DbOptions := { o with bufferFuture := value }

def GetBufferFuture (o : DbOptions) : Int := o.bufferFuture

def BufferPast (o : DbOptions) (value : Int) : DbOptions := { o with bufferPast := value }

def GetBufferPast (o : DbOptions) : Int := o.bufferPast

def BufferDrain (o : DbOptions) (value : Int) : DbOptions := { o with bufferDrain := value }

def GetBufferDrain (o : DbOptions) : Int := o.bufferDrain

def BufferBucketAllocSize (o : DbOptions) (value : Int) : DbOptions :=
  { o with bufferBucketAllocSize := value }

def GetBufferBucketAllocSize (o : DbOptions) : Int := o.bufferBucketAllocSize

def DatabaseBlockAllocSize (o : DbOptions) (value : Int) : DbOptions :=
  { o with databaseBlockAllocSize := value }

def GetDatabaseBlockAllocSize (o : DbOptions) : Int := o.databaseBlockAllocSize

def RetentionPeriod (o : DbOptions) (value : Int) : DbOptions :=
  { o with retentionPeriod := value }

def GetRetentionPeriod (o : DbOptions) : Int := o.retentionPeriod

def MaxFlushRetries (o : DbOptions) (value : Int) : DbOptions :=
  { o with maxFlushRetries := value }

def GetMaxFlushRetries (o : DbOptions) : Int := o.maxFlushRetries

end DbOptions

/-- NewDatabaseOptions creates a new set of database options with defaults.
It builds the struct literal (fields not listed in the Go literal are Go
zero values) and then calls `EncodingTszPooled` with the two default
allocation sizes.  Note the return type: the constructor has no error
result, and neither it nor any setter performs validation (the Go source
carries a TODO to add an `IsValid` check later). -/
def NewDatabaseOptions : DbOptions :=
  DbOptions.EncodingTszPooled
    { blockSize := defaultBlockSize
      bufferFuture := defaultBufferFuture
      bufferPast := defaultBufferPast
      bufferDrain := defaultBufferDrain
      bufferBucketAllocSize := 0
      databaseBlockAllocSize := 0
      retentionPeriod := defaultRetentionPeriod
      maxFlushRetries := defaultMaxFlushRetries }
    defaultBufferBucketAllocSize defaultDatabaseBlockAllocSize

/-- The validity requirement the spec imposes on a configuration
(`bufferPast`/`bufferFuture` less than `blockSize`, durations positive).
Stated from the spec's words, to be compared with what the code enforces. -/
def SpecValidConfig (o : DbOptions) : Prop :=
  o.bufferPast < o.blockSize ∧ o.bufferFuture < o.blockSize ∧
    0 < o.blockSize ∧ 0 < o.bufferPast ∧ 0 < o.bufferFuture ∧
    0 < o.bufferDrain ∧ 0 < o.retentionPeriod

instance (o : DbOptions) : Decidable (SpecValidConfig o) := by
  unfold SpecValidConfig; infer_instance

/-! ## The bit-packed output stream (`src/encoding/ostream.go`) -/

/-- Ostream encapsulates a writable stream.  `backing` is the contents of
the underlying byte array, `len` the slice length of `rawBuffer`
(`len ≤ backing.length` for every stream the code builds), and `pos` how
many bits have been used in the last byte. -/
structure OStream where
  backing : List Nat
  len : Nat
  pos : Nat
deriving Repr, DecidableEq

namespace OStream

/-- The bytes visible through the `rawBuffer` slice. -/
def rawBuffer (s : OStream) : List Nat := s.backing.take s.len

/-- Len returns the length of the Ostream (`len(os.rawBuffer)`, the slice
length field). -/
def Len (s : OStream) : Nat := s.len

/-- Empty returns whether the Ostream is empty. -/
def Empty (s : OStream) : Bool := s.Len == 0 && s.pos == 0

/-- lastIndex is `Len() - 1` (Go `int` arithmetic; only ever used by
`fillUnused` on streams with at least one byte). -/
def lastIndex (s : OStream) : Nat := s.Len - 1

/-- hasUnusedBits: the last byte is partially filled. -/
def hasUnusedBits (s : OStream) : Bool := decide (0 < s.pos) && decide (s.pos < 8)

/-- grow appends the last byte of `v` to rawBuffer and sets `pos` to `np`.
Go's `append` (and the pooled `pool.AppendByte`) writes in place at index
`len` when the underlying array already has that slot, otherwise it
materializes a new slot. -/
def grow (s : OStream) (v np : Nat) : OStream :=
  { backing :=
      if s.len < s.backing.length then s.backing.set s.len (v % 256)
      else s.backing ++ [v % 256]
    len := s.len + 1
    pos := np }

/-- fillUnused ORs `v >> pos` into the last byte of rawBuffer. -/
def fillUnused (s : OStream) (v : Nat) : OStream :=
  { s with
    backing :=
      s.backing.set s.lastIndex (s.backing.getD s.lastIndex 0 ||| ((v % 256) >>> s.pos)) }

/-- WriteBit writes the last bit of `v` (`v <<= 7` as a byte, then either
grow a fresh byte or fill the open one). -/
def WriteBit (s : OStream) (v : Nat) : OStream :=
  let b := ((v % 256) <<< 7) % 256
  if s.hasUnusedBits then
    let t := s.fillUnused b
    { t with pos := t.pos + 1 }
  else s.grow b 1

/-- WriteByte writes the last byte of `v`: either append it whole, or split
it between the open byte (`fillUnused`) and a fresh byte holding the
remaining low bits shifted up. -/
def WriteByte (s : OStream) (v : Nat) : OStream :=
  let v := v % 256
  if s.hasUnusedBits then
    let t := s.fillUnused v
    t.grow ((v <<< (8 - t.pos)) % 256) t.pos
  else s.grow v 8

/-- WriteBytes writes a byte slice, one `WriteByte` per element. -/
def WriteBytes (s : OStream) (bytes : List Nat) : OStream :=
  bytes.foldl (fun t b => t.WriteByte b) s

/-- Body of the first loop of WriteBits, structurally recursive on an
iteration bound (the bound `numBits.toNat` used below is never exhausted
while the guard holds, so this is exactly the `for numBits >= 8` loop; see
`writeBitsByteLoop_unfold`). -/
def writeBitsByteLoopFuel : Nat → OStream → Nat → Int → OStream × Nat × Int
  | 0, s, v, numBits => (s, v, numBits)
  | fuel + 1, s, v, numBits =>
    if 8 ≤ numBits then
      writeBitsByteLoopFuel fuel (s.WriteByte (v >>> 56)) ((v <<< 8) % 2 ^ 64) (numBits - 8)
    else (s, v, numBits)

/-- The first loop of WriteBits: while `numBits >= 8`, write the top byte
of `v` and shift it out. -/
def writeBitsByteLoop (s : OStream) (v : Nat) (numBits : Int) : OStream × Nat × Int :=
  writeBitsByteLoopFuel numBits.toNat s v numBits

/-- Body of the second loop of WriteBits, structurally recursive on an
iteration bound (never exhausted while the guard holds; see
`writeBitsBitLoop_unfold`). -/
def writeBitsBitLoopFuel : Nat → OStream → Nat → Int → OStream × Nat × Int
  | 0, s, v, numBits => (s, v, numBits)
  | fuel + 1, s, v, numBits =>
    if 0 < numBits then
      writeBitsBitLoopFuel fuel (s.WriteBit ((v >>> 63) &&& 1)) ((v <<< 1) % 2 ^ 64)
        (numBits - 1)
    else (s, v, numBits)

/-- The second loop of WriteBits: while `numBits > 0`, write the top bit
of `v` and shift it out. -/
def writeBitsBitLoop (s : OStream) (v : Nat) (numBits : Int) : OStream × Nat × Int :=
  writeBitsBitLoopFuel numBits.toNat s v numBits

/-- WriteBits writes the lowest `numBits` of `v` to the stream, starting
from the most significant bit to the least significant bit.  `numBits` is
a Go `int`; `v` a `uint64` (shifts wrap modulo `2 ^ 64`, and a shift count
of 64 or more yields 0, as in Go). -/
def WriteBits (s : OStream) (v : Nat) (numBits : Int) : OStream :=
  if numBits = 0 then s
  else
    let nb := if 64 < numBits then 64 else numBits
    let v1 := ((v % 2 ^ 64) <<< (64 - nb).toNat) % 2 ^ 64
    let r1 := s.writeBitsByteLoop v1 nb
    let r2 := r1.1.writeBitsBitLoop r1.2.1 r1.2.2
    r2.1

/-- Reset resets the stream onto the given byte slice; a non-empty slice
has its last byte treated as fully used (`pos = 8`). -/
def Reset (_s : OStream) (buffer : List Nat) : OStream :=
  { backing := buffer.map (· % 256)
    len := buffer.length
    pos := if 0 < buffer.length then 8 else 0 }

/-- Clone creates a copy of the Ostream: it copies the slice header and
`pos`, sharing the underlying array. -/
def Clone (s : OStream) : OStream := ⟨s.backing, s.len, s.pos⟩

/-- Rawbytes returns the Ostream's raw bytes and `pos`. -/
def Rawbytes (s : OStream) : List Nat × Nat := (s.rawBuffer, s.pos)

end OStream

/-- NewOStream creates a new Ostream (the `initAllocIfEmpty` capacity hint
and the byte pool affect allocation only, not the logical state). -/
def NewOStream (bytes : List Nat) : OStream :=
  OStream.Reset ⟨[], 0, 0⟩ bytes

/-! ## Spec-side views: bits of a stream, write requests -/

/-- Bit `k` of a byte sequence, reading each byte most-significant-bit
first. -/
def bitAt (backing : List Nat) (k : Nat) : Bool :=
  (backing.getD (k / 8) 0).testBit (7 - k % 8)

/-- Number of committed bits of a stream with `len` bytes and `pos` bits
used in the last byte: every byte but the last contributes 8 bits, the
last one `pos`. -/
def committedBits (len pos : Nat) : Nat :=
  if len = 0 then 0 else 8 * (len - 1) + pos

/-- The committed bits of a stream, most-significant-bit-first per byte,
excluding the padding at offsets `≥ pos` of the last byte. -/
def OStream.streamBits (s : OStream) : List Bool :=
  (List.range (committedBits s.len s.pos)).map (fun k => bitAt s.backing k)

/-- The 8 bits of a byte, most significant first. -/
def byteBitsMSB (v : Nat) : List Bool :=
  (List.range 8).map (fun j => v.testBit (7 - j))

/-- The lowest `n` bits of a value, most significant of the `n` first. -/
def lowBitsMSB (v n : Nat) : List Bool :=
  (List.range n).map (fun j => v.testBit (n - 1 - j))

/-- The top `n` bits of a 64-bit value, most significant first. -/
def topBitsMSB (v n : Nat) : List Bool :=
  (List.range n).map (fun j => v.testBit (63 - j))

/-- One call of the ostream write interface. -/
inductive WriteOp where
  | bit (v : Nat)
  | byte (v : Nat)
  | bytes (l : List Nat)
  | bits (v : Nat) (n : Int)
deriving Repr, DecidableEq

/-- Run one write call on a stream. -/
def applyOp (s : OStream) : WriteOp → OStream
  | .bit v => s.WriteBit v
  | .byte v => s.WriteByte v
  | .bytes l => s.WriteBytes l
  | .bits v n => s.WriteBits v n

/-- Run a sequence of write calls on a stream. -/
def applyOps (s : OStream) (ops : List WriteOp) : OStream :=
  ops.foldl applyOp s

/-- The bits a write call requests, most-significant-bit-first:
one bit for `WriteBit`, the 8 bits of the byte for `WriteByte`, the bytes
in order for `WriteBytes`, and the lowest `numBits` (clamped to 64, none
for non-positive counts) for `WriteBits`. -/
def requestedBits : WriteOp → List Bool
  | .bit v => [v.testBit 0]
  | .byte v => byteBitsMSB v
  | .bytes l => (l.map byteBitsMSB).flatten
  | .bits v n => lowBitsMSB v (min n.toNat 64)

/-! ## Invariants -/

/-- The representation invariant of every stream the code builds: the
slice length is within the backing array, `pos` is at most 8 and is zero
exactly on the empty stream, and every materialized byte is below 256. -/
def Inv (s : OStream) : Prop :=
  s.len ≤ s.backing.length ∧ s.pos ≤ 8 ∧ (s.len = 0 ↔ s.pos = 0) ∧
    ∀ x ∈ s.backing, x < 256

instance (s : OStream) : Decidable (Inv s) := by
  unfold Inv; infer_instance

/-- The padding bits of the open byte (offsets `≥ pos`) are zero.  This
holds for every stream reachable from `NewOStream`/`Reset` and is what
makes `fillUnused`'s OR write exact bits. -/
def Pad (s : OStream) : Prop :=
  ∀ j, j < 8 → s.pos ≤ j → (s.backing.getD (s.len - 1) 0).testBit (7 - j) = false

instance (s : OStream) : Decidable (Pad s) := by
  unfold Pad; infer_instance

/-- Number of bytes of the stream that no later write may touch: all of
them once `pos = 8`, all but the open last byte otherwise. -/
def fullBytes (s : OStream) : Nat :=
  if s.pos = 8 then s.len else s.len - 1

/-- `StepOK s t r`: stream `t` is the result of a computation on `s` that
appended exactly the bits `r`.  It packages the invariant on `t`, growth of
the array/slice, the frame conditions (bytes below `fullBytes s` and bits
below `committedBits s` are untouched), and — for streams with clean
padding — preservation of `Pad` and the values of the appended bits. -/
def StepOK (s t : OStream) (r : List Bool) : Prop :=
  Inv t ∧
  s.backing.length ≤ t.backing.length ∧
  s.len ≤ t.len ∧
  fullBytes s ≤ fullBytes t ∧
  committedBits t.len t.pos = committedBits s.len s.pos + r.length ∧
  (∀ i, i < fullBytes s → t.backing.getD i 0 = s.backing.getD i 0) ∧
  (∀ k, k < committedBits s.len s.pos → bitAt t.backing k = bitAt s.backing k) ∧
  (Pad s → Pad t ∧
    ∀ j, j < r.length → bitAt t.backing (committedBits s.len s.pos + j) = r.getD j false)

/-- One interleaved step on a pair of streams that share one backing array
(the situation `Clone` creates): the chosen side runs its write, and the
other side's view of the shared array is updated to the written array.
This models Go's aliasing of the two slice headers over one array; when Go
reallocates it actually unshares the arrays, so keeping them shared here
only adds interference and makes the non-interference theorem stronger. -/
def sideApply (p : OStream × OStream) (e : Bool × WriteOp) : OStream × OStream :=
  if e.1 then
    let a := applyOp p.1 e.2
    (a, { p.2 with backing := a.backing })
  else
    let b := applyOp p.2 e.2
    ({ p.1 with backing := b.backing }, b)

/-- Run an interleaved trace of writes on a pair of streams sharing one
backing array. -/
def runShared (p : OStream × OStream) (tr : List (Bool × WriteOp)) : OStream × OStream :=
  tr.foldl sideApply p

/-! ## List and bit helper lemmas -/

lemma getD_set_self (l : List Nat) (i a : Nat) (h : i < l.length) :
    (l.set i a).getD i 0 = a := by
  simp [List.getD, List.getElem?_set, h]

lemma getD_set_ne (l : List Nat) (i j a : Nat) (h : i ≠ j) :
    (l.set i a).getD j 0 = l.getD j 0 := by
  simp [List.getD, List.getElem?_set, h]

lemma getD_append_lt (l : List Nat) (a j : Nat) (h : j < l.length) :
    (l ++ [a]).getD j 0 = l.getD j 0 := by
  simp [List.getD, List.getElem?_append, h]

lemma getD_append_self (l : List Nat) (a : Nat) :
    (l ++ [a]).getD l.length 0 = a := by
  simp [List.getD]

lemma getD_map_range (f : Nat → Bool) (n j : Nat) (h : j < n) :
    ((List.range n).map f).getD j false = f j := by
  rw [List.getD_eq_getElem _ _ (by simpa using h)]
  simp

lemma testBit_ge_of_lt {x n : Nat} (i : Nat) (hx : x < 2 ^ n) (hi : n ≤ i) :
    x.testBit i = false :=
  Nat.testBit_lt_two_pow (Nat.lt_of_lt_of_le hx (Nat.pow_le_pow_right (by omega) hi))

lemma lor_lt_256 {x y : Nat} (hx : x < 256) (hy : y < 256) : x ||| y < 256 := by
  have h : (2 : Nat) ^ 8 = 256 := by norm_num
  rw [← h] at hx hy ⊢
  refine Nat.lt_pow_two_of_testBit _ fun i hi => ?_
  rw [Nat.testBit_lor, testBit_ge_of_lt i hx hi, testBit_ge_of_lt i hy hi]
  rfl

lemma shiftRight_lt_256 {x : Nat} (p : Nat) (hx : x < 256) : x >>> p < 256 := by
  rw [Nat.shiftRight_eq_div_pow]
  exact Nat.lt_of_le_of_lt (Nat.div_le_self _ _) hx

/-- The byte `WriteBit` assembles (`v <<= 7` as a byte) has exactly one
possibly-set bit, at position 7, holding the last bit of `v`. -/
lemma testBit_writeBitByte (v i : Nat) :
    ((((v % 256) <<< 7) % 256).testBit i) = (decide (i = 7) && v.testBit 0) := by
  have h256 : (256 : Nat) = 2 ^ 8 := by norm_num
  rw [h256, Nat.testBit_mod_two_pow, Nat.testBit_shiftLeft, Nat.testBit_mod_two_pow]
  by_cases h7 : i = 7
  · subst h7; simp
  · rcases Nat.lt_or_ge i 7 with hlt | hge
    · have : ¬ (7 ≤ i) := by omega
      simp [this, h7]
    · have : ¬ (i < 8) := by omega
      simp [this, h7]

/-- Bits of the byte `WriteByte` pushes after a split:
`(v << (8-pos)) % 256` holds the low `pos` bits of `v` at the top. -/
lemma testBit_shl_mod256 (v c i : Nat) :
    (((v % 256) <<< c) % 256).testBit i =
      (decide (c ≤ i) && decide (i < 8) && v.testBit (i - c)) := by
  have h256 : (256 : Nat) = 2 ^ 8 := by norm_num
  rw [h256, Nat.testBit_mod_two_pow, Nat.testBit_shiftLeft, Nat.testBit_mod_two_pow]
  by_cases h8 : i < 8
  · by_cases hc : c ≤ i
    · have : i - c < 8 := by omega
      simp [h8, hc, this]
    · simp [h8, hc]
  · simp [h8]

/-- Bits of `(v % 256) >>> p` in terms of bits of `v`. -/
lemma testBit_shr_mod256 (v p i : Nat) :
    ((v % 256) >>> p).testBit i = (decide (p + i < 8) && v.testBit (p + i)) := by
  have h256 : (256 : Nat) = 2 ^ 8 := by norm_num
  rw [Nat.testBit_shiftRight, h256, Nat.testBit_mod_two_pow]

/-! ## Facts about `grow` and `fillUnused` -/

lemma grow_len (s : OStream) (v np : Nat) : (s.grow v np).len = s.len + 1 := rfl

lemma grow_pos (s : OStream) (v np : Nat) : (s.grow v np).pos = np := rfl

lemma grow_backing_length (s : OStream) (v np : Nat) (h : s.len ≤ s.backing.length) :
    s.backing.length ≤ (s.grow v np).backing.length ∧
      s.len + 1 ≤ (s.grow v np).backing.length := by
  unfold OStream.grow
  dsimp only
  split
  · simp only [List.length_set]; omega
  · simp only [List.length_append, List.length_cons, List.length_nil]; omega

lemma grow_getD_lt (s : OStream) (v np i : Nat) (h : s.len ≤ s.backing.length)
    (hi : i < s.len) : (s.grow v np).backing.getD i 0 = s.backing.getD i 0 := by
  unfold OStream.grow
  dsimp only
  split
  · exact getD_set_ne _ _ _ _ (by omega)
  · exact getD_append_lt _ _ _ (by omega)

lemma grow_getD_self (s : OStream) (v np : Nat) (h : s.len ≤ s.backing.length) :
    (s.grow v np).backing.getD s.len 0 = v % 256 := by
  unfold OStream.grow
  dsimp only
  split
  · exact getD_set_self _ _ _ (by omega)
  · rename_i hge
    have : s.len = s.backing.length := by omega
    rw [this]
    exact getD_append_self _ _

lemma grow_bytes (s : OStream) (v np : Nat) (h256 : ∀ x ∈ s.backing, x < 256) :
    ∀ x ∈ (s.grow v np).backing, x < 256 := by
  unfold OStream.grow
  dsimp only
  split
  · intro x hx
    rcases List.mem_or_eq_of_mem_set hx with hmem | rfl
    · exact h256 x hmem
    · exact Nat.mod_lt _ (by omega)
  · intro x hx
    rcases List.mem_append.mp hx with hmem | hmem
    · exact h256 x hmem
    · rcases List.mem_singleton.mp hmem with rfl
      exact Nat.mod_lt _ (by omega)

/-! ## StepOK lemmas for the primitive writes -/

lemma hasUnusedBits_iff (s : OStream) :
    s.hasUnusedBits = true ↔ 0 < s.pos ∧ s.pos < 8 := by
  simp [OStream.hasUnusedBits]

lemma pos_cases_of_not_unused (s : OStream) (h : Inv s)
    (hu : s.hasUnusedBits = false) : (s.pos = 0 ∧ s.len = 0) ∨ s.pos = 8 := by
  obtain ⟨-, hpos, hiff, -⟩ := h
  by_cases h0 : s.pos = 0
  · exact Or.inl ⟨h0, hiff.mpr h0⟩
  · right
    by_contra h8
    have : s.hasUnusedBits = true := (hasUnusedBits_iff s).mpr (by omega)
    rw [this] at hu
    cases hu

lemma committedBits_grow_case (s : OStream) (h : Inv s)
    (hu : s.hasUnusedBits = false) : committedBits s.len s.pos = 8 * s.len := by
  rcases pos_cases_of_not_unused s h hu with ⟨h0, hl⟩ | h8
  · simp [committedBits, hl]
  · obtain ⟨-, -, hiff, -⟩ := h
    have hl : s.len ≠ 0 := fun hc => by omega
    unfold committedBits
    rw [if_neg hl]
    omega

lemma fullBytes_grow_case (s : OStream) (h : Inv s)
    (hu : s.hasUnusedBits = false) : fullBytes s = s.len := by
  rcases pos_cases_of_not_unused s h hu with ⟨h0, hl⟩ | h8
  · simp [fullBytes, hl, h0]
  · simp [fullBytes, h8]

/-- Appending a fresh byte `b` with new position `np` (the shared shape of
the non-split branches of `WriteBit` and `WriteByte`) appends the top `np`
bits of `b`. -/
lemma stepOK_grow (s : OStream) (h : Inv s) (hu : s.hasUnusedBits = false)
    (b np : Nat) (hb : b < 256) (hnp0 : 0 < np) (hnp8 : np ≤ 8)
    (hpad : ∀ j, j < 8 → np ≤ j → b.testBit (7 - j) = false) :
    StepOK s (s.grow b np) ((List.range np).map fun j => b.testBit (7 - j)) := by
  have hInv := h
  obtain ⟨hlen, hpos, hiff, h256⟩ := h
  have hgl := grow_backing_length s b np hlen
  have hC := committedBits_grow_case s hInv hu
  have hFB := fullBytes_grow_case s hInv hu
  have hbm : b % 256 = b := Nat.mod_eq_of_lt hb
  have hrlen : ((List.range np).map fun j => b.testBit (7 - j)).length = np := by
    simp
  refine ⟨⟨hgl.2, hnp8, by simp [OStream.grow]; omega, grow_bytes s b np h256⟩,
    hgl.1, Nat.le_succ s.len, ?_, ?_, ?_, ?_, ?_⟩
  · rw [hFB]
    unfold fullBytes OStream.grow
    dsimp only
    split <;> omega
  · rw [hC, hrlen]
    unfold committedBits OStream.grow
    dsimp only
    rw [if_neg (by omega)]
    omega
  · intro i hi
    rw [hFB] at hi
    exact grow_getD_lt s b np i hlen hi
  · intro k hk
    rw [hC] at hk
    unfold bitAt
    rw [grow_getD_lt s b np _ hlen (by omega)]
  · intro _
    constructor
    · intro j hj8 hjnp
      have hidx : (s.grow b np).len - 1 = s.len := by simp [OStream.grow]
      rw [hidx, grow_getD_self s b np hlen, hbm]
      exact hpad j hj8 hjnp
    · intro j hj
      rw [hrlen] at hj
      rw [hC]
      unfold bitAt
      have hdiv : (8 * s.len + j) / 8 = s.len := by omega
      have hmod : (8 * s.len + j) % 8 = j := by omega
      rw [hdiv, hmod, grow_getD_self s b np hlen, hbm,
        getD_map_range _ _ _ hj]

lemma getD_lt_256 (s : OStream) (h256 : ∀ x ∈ s.backing, x < 256) (i : Nat)
    (hi : i < s.backing.length) : s.backing.getD i 0 < 256 := by
  rw [List.getD_eq_getElem _ _ hi]
  exact h256 _ (List.getElem_mem hi)

/-- `WriteBit` appends exactly the last bit of `v`. -/
lemma stepOK_WriteBit (s : OStream) (v : Nat) (h : Inv s) :
    StepOK s (s.WriteBit v) [v.testBit 0] := by
  by_cases hu : s.hasUnusedBits = true
  case neg =>
    have hu' : s.hasUnusedBits = false := by simpa using hu
    have hsg : s.WriteBit v = s.grow (((v % 256) <<< 7) % 256) 1 := by
      simp [OStream.WriteBit, hu']
    have hlist : ((List.range 1).map fun j => ((((v % 256) <<< 7) % 256)).testBit (7 - j)) =
        [v.testBit 0] := by
      simp [testBit_writeBitByte, List.range_succ]
    rw [hsg, ← hlist]
    exact stepOK_grow s h hu' _ 1 (Nat.mod_lt _ (by omega)) (by omega) (by omega)
      (fun j hj8 hj1 => by
        rw [testBit_writeBitByte]
        have : ¬ (7 - j = 7) := by omega
        simp [this])
  case pos =>
    have hInv := h
    obtain ⟨hlen, hpos, hiff, h256⟩ := h
    obtain ⟨hp0, hp8⟩ := (hasUnusedBits_iff s).mp hu
    have hl1 : 1 ≤ s.len := by
      rcases Nat.eq_zero_or_pos s.len with h0 | h1
      · exact absurd (hiff.mp h0) (by omega)
      · exact h1
    have hidx : s.len - 1 < s.backing.length := by omega
    set w := ((v % 256) <<< 7) % 256 with hw
    have hwlt : w < 256 := Nat.mod_lt _ (by omega)
    have hww : w % 256 = w := Nat.mod_eq_of_lt hwlt
    set old := s.backing.getD (s.len - 1) 0 with hold
    have holdlt : old < 256 := getD_lt_256 s h256 _ hidx
    have ht : s.WriteBit v =
        ⟨s.backing.set (s.len - 1) (old ||| (w >>> s.pos)), s.len, s.pos + 1⟩ := by
      simp only [OStream.WriteBit, hu, if_pos, OStream.fillUnused, OStream.lastIndex,
        OStream.Len, hww, ← hw, ← hold]
    have hC : committedBits s.len s.pos = 8 * (s.len - 1) + s.pos := by
      unfold committedBits
      rw [if_neg (by omega)]
    have hwbit : ∀ i, w.testBit i = (decide (i = 7) && v.testBit 0) := by
      intro i
      rw [hw]
      exact testBit_writeBitByte v i
    rw [ht]
    refine ⟨⟨by simpa [List.length_set] using hlen,
      by show s.pos + 1 ≤ 8; omega,
      by show s.len = 0 ↔ s.pos + 1 = 0; omega,
      ?_⟩, ?_, ?_, ?_, ?_, ?_, ?_, ?_⟩
    · intro x hx
      rcases List.mem_or_eq_of_mem_set hx with hmem | rfl
      · exact h256 x hmem
      · exact lor_lt_256 holdlt (shiftRight_lt_256 _ hwlt)
    · simp [List.length_set]
    · exact Nat.le_refl _
    · unfold fullBytes
      dsimp only
      split <;> split <;> omega
    · unfold committedBits
      dsimp only
      rw [if_neg (by omega), if_neg (by omega)]
      simp
      omega
    · intro i hi
      unfold fullBytes at hi
      rw [if_neg (by omega)] at hi
      exact getD_set_ne _ _ _ _ (by omega)
    · intro k hk
      rw [hC] at hk
      unfold bitAt
      dsimp only
      rcases Nat.lt_or_ge (k / 8) (s.len - 1) with hkd | hkd
      · rw [getD_set_ne _ _ _ _ (by omega)]
      · have hke : k / 8 = s.len - 1 := by omega
        have hkm : k % 8 < s.pos := by omega
        rw [hke, getD_set_self _ _ _ hidx, Nat.testBit_lor, Nat.testBit_shiftRight,
          hwbit, ← hold]
        have : ¬ (s.pos + (7 - k % 8) = 7) := by omega
        simp [this]
    · intro hpads
      constructor
      · intro j hj8 hjp
        dsimp only at hjp
        show (((s.backing.set (s.len - 1) (old ||| w >>> s.pos)).getD
          (s.len - 1) 0)).testBit (7 - j) = false
        rw [getD_set_self _ _ _ (by omega), Nat.testBit_lor, Nat.testBit_shiftRight,
          hwbit]
        have h1 : old.testBit (7 - j) = false := hpads j hj8 (by omega)
        have h2 : ¬ (s.pos + (7 - j) = 7) := by omega
        rw [h1]
        simp [h2]
      · intro j hj
        simp only [List.length_singleton] at hj
        have hj0 : j = 0 := by omega
        subst hj0
        rw [hC]
        unfold bitAt
        have hdiv : (8 * (s.len - 1) + s.pos + 0) / 8 = s.len - 1 := by omega
        have hmod : (8 * (s.len - 1) + s.pos + 0) % 8 = s.pos := by omega
        rw [hdiv, hmod]
        dsimp only
        rw [getD_set_self _ _ _ hidx, Nat.testBit_lor, Nat.testBit_shiftRight, hwbit]
        have h1 : old.testBit (7 - s.pos) = false := hpads s.pos (by omega) (by omega)
        have h2 : s.pos + (7 - s.pos) = 7 := by omega
        rw [h1, h2]
        simp

lemma byteBitsMSB_getD (v j : Nat) (h : j < 8) :
    (byteBitsMSB v).getD j false = v.testBit (7 - j) := by
  unfold byteBitsMSB
  exact getD_map_range _ _ _ h

lemma byteBitsMSB_mod256 (v : Nat) : byteBitsMSB (v % 256) = byteBitsMSB v := by
  unfold byteBitsMSB
  refine List.map_congr_left fun j hj => ?_
  have hj8 : j < 8 := List.mem_range.mp hj
  have h256 : (256 : Nat) = 2 ^ 8 := by norm_num
  rw [h256, Nat.testBit_mod_two_pow]
  simp [show 7 - j < 8 by omega]

lemma byteBitsMSB_length (v : Nat) : (byteBitsMSB v).length = 8 := by
  simp [byteBitsMSB]

/-- `WriteByte` appends exactly the 8 bits of the byte, most significant
first. -/
lemma stepOK_WriteByte (s : OStream) (v : Nat) (h : Inv s) :
    StepOK s (s.WriteByte v) (byteBitsMSB v) := by
  by_cases hu : s.hasUnusedBits = true
  case neg =>
    have hu' : s.hasUnusedBits = false := by simpa using hu
    have hsg : s.WriteByte v = s.grow (v % 256) 8 := by
      simp [OStream.WriteByte, hu']
    have hlist : ((List.range 8).map fun j => (v % 256).testBit (7 - j)) =
        byteBitsMSB v := by
      rw [← byteBitsMSB_mod256]
      rfl
    rw [hsg, ← hlist]
    exact stepOK_grow s h hu' _ 8 (Nat.mod_lt _ (by omega)) (by omega) (by omega)
      (fun j hj8 hj => absurd hj (by omega))
  case pos =>
    have hInv := h
    obtain ⟨hlen, hpos, hiff, h256⟩ := h
    obtain ⟨hp0, hp8⟩ := (hasUnusedBits_iff s).mp hu
    have hl1 : 1 ≤ s.len := by
      rcases Nat.eq_zero_or_pos s.len with h0 | h1
      · exact absurd (hiff.mp h0) (by omega)
      · exact h1
    have hidx : s.len - 1 < s.backing.length := by omega
    have hv1lt : v % 256 < 256 := Nat.mod_lt _ (by omega)
    have hv1m : v % 256 % 256 = v % 256 := Nat.mod_eq_of_lt hv1lt
    set old := s.backing.getD (s.len - 1) 0 with hold
    have holdlt : old < 256 := getD_lt_256 s h256 _ hidx
    set newv := old ||| ((v % 256) >>> s.pos) with hnewv
    have hnewvlt : newv < 256 := lor_lt_256 holdlt (shiftRight_lt_256 _ hv1lt)
    set b2 := ((v % 256) <<< (8 - s.pos)) % 256 with hb2
    set s1 : OStream := ⟨s.backing.set (s.len - 1) newv, s.len, s.pos⟩ with hs1
    have hs1l : s1.len = s.len := rfl
    have hs1p : s1.pos = s.pos := rfl
    have hs1L : s1.backing.length = s.backing.length := by
      simp [hs1, List.length_set]
    have hs1len : s1.len ≤ s1.backing.length := by omega
    have hs1bytes : ∀ x ∈ s1.backing, x < 256 := by
      intro x hx
      rcases List.mem_or_eq_of_mem_set hx with hmem | rfl
      · exact h256 x hmem
      · exact hnewvlt
    have ht : s.WriteByte v = s1.grow b2 s.pos := by
      simp only [OStream.WriteByte, hu, if_pos, OStream.fillUnused, OStream.lastIndex,
        OStream.Len, hv1m, hs1, hb2, hnewv, hold]
    have hgl := grow_backing_length s1 b2 s.pos hs1len
    have hC : committedBits s.len s.pos = 8 * (s.len - 1) + s.pos := by
      unfold committedBits
      rw [if_neg (by omega)]
    -- bytes of the grown stream, by region
    have hgetlow : ∀ i, i < s.len - 1 →
        (s1.grow b2 s.pos).backing.getD i 0 = s.backing.getD i 0 := by
      intro i hi
      rw [grow_getD_lt s1 b2 s.pos i hs1len (by omega)]
      exact getD_set_ne _ _ _ _ (by omega)
    have hgetmid : (s1.grow b2 s.pos).backing.getD (s.len - 1) 0 = newv := by
      rw [grow_getD_lt s1 b2 s.pos _ hs1len (by omega)]
      exact getD_set_self _ _ _ hidx
    have hgettop : (s1.grow b2 s.pos).backing.getD s.len 0 = b2 := by
      have := grow_getD_self s1 b2 s.pos hs1len
      rwa [Nat.mod_eq_of_lt (Nat.mod_lt _ (by omega))] at this
    have hb2bit : ∀ i, b2.testBit i =
        (decide (8 - s.pos ≤ i) && decide (i < 8) && v.testBit (i - (8 - s.pos))) := by
      intro i
      rw [hb2]
      exact testBit_shl_mod256 v (8 - s.pos) i
    rw [ht]
    refine ⟨⟨hgl.2, by show s.pos ≤ 8; omega,
      by show s.len + 1 = 0 ↔ s.pos = 0; omega,
      grow_bytes s1 b2 s.pos hs1bytes⟩, ?_, Nat.le_succ _, ?_, ?_, ?_, ?_, ?_⟩
    · calc s.backing.length = s1.backing.length := by simp [hs1, List.length_set]
        _ ≤ _ := hgl.1
    · unfold fullBytes
      rw [grow_pos s1 b2 s.pos, grow_len s1 b2 s.pos, hs1l]
      split <;> omega
    · unfold committedBits
      rw [grow_pos s1 b2 s.pos, grow_len s1 b2 s.pos, hs1l,
        if_neg (by omega), if_neg (by omega), byteBitsMSB_length]
      omega
    · intro i hi
      unfold fullBytes at hi
      rw [if_neg (by omega)] at hi
      exact hgetlow i hi
    · intro k hk
      rw [hC] at hk
      unfold bitAt
      rcases Nat.lt_or_ge (k / 8) (s.len - 1) with hkd | hkd
      · rw [hgetlow _ hkd]
      · have hke : k / 8 = s.len - 1 := by omega
        have hkm : k % 8 < s.pos := by omega
        rw [hke, hgetmid, hnewv, Nat.testBit_lor, testBit_shr_mod256, ← hold]
        have : ¬ (s.pos + (7 - k % 8) < 8) := by omega
        simp [this]
    · intro hpads
      constructor
      · intro j hj8 hjp
        have hjp2 : s.pos ≤ j := hjp
        show ((s1.grow b2 s.pos).backing.getD ((s1.grow b2 s.pos).len - 1) 0).testBit
          (7 - j) = false
        have hli : (s1.grow b2 s.pos).len - 1 = s.len := by
          simp [OStream.grow]
        rw [hli, hgettop, hb2bit]
        have : ¬ (8 - s.pos ≤ 7 - j) := by omega
        simp [this]
      · intro j hj
        rw [byteBitsMSB_length] at hj
        rw [hC, byteBitsMSB_getD v j hj]
        unfold bitAt
        rcases Nat.lt_or_ge (s.pos + j) 8 with hzone | hzone
        · have hdiv : (8 * (s.len - 1) + s.pos + j) / 8 = s.len - 1 := by omega
          have hmod : (8 * (s.len - 1) + s.pos + j) % 8 = s.pos + j := by omega
          rw [hdiv, hmod, hgetmid, hnewv, Nat.testBit_lor, testBit_shr_mod256]
          have h1 : old.testBit (7 - (s.pos + j)) = false :=
            hpads (s.pos + j) (by omega) (by omega)
          have h2 : s.pos + (7 - (s.pos + j)) = 7 - j := by omega
          have h3 : s.pos + (7 - (s.pos + j)) < 8 := by omega
          rw [h1, h2]
          simp [show 7 - j < 8 by omega]
        · have hdiv : (8 * (s.len - 1) + s.pos + j) / 8 = s.len := by omega
          have hmod : (8 * (s.len - 1) + s.pos + j) % 8 = s.pos + j - 8 := by omega
          rw [hdiv, hmod, hgettop, hb2bit]
          have h1 : 8 - s.pos ≤ 7 - (s.pos + j - 8) := by omega
          have h2 : 7 - (s.pos + j - 8) < 8 := by omega
          have h3 : 7 - (s.pos + j - 8) - (8 - s.pos) = 7 - j := by omega
          simp [h1, h2, h3]

lemma getD_append_bool_lt (l l2 : List Bool) (j : Nat) (h : j < l.length) :
    (l ++ l2).getD j false = l.getD j false := by
  simp [List.getD, List.getElem?_append, h]

lemma getD_append_bool_ge (l l2 : List Bool) (j : Nat) (h : l.length ≤ j) :
    (l ++ l2).getD j false = l2.getD (j - l.length) false := by
  simp [List.getD, List.getElem?_append_right, h]

lemma stepOK_refl (s : OStream) (h : Inv s) : StepOK s s [] := by
  exact ⟨h, Nat.le_refl _, Nat.le_refl _, Nat.le_refl _, by simp,
    fun i _ => rfl, fun k _ => rfl,
    fun hp => ⟨hp, fun j hj => by simp at hj⟩⟩

lemma StepOK.trans {s t u : OStream} {r q : List Bool}
    (h1 : StepOK s t r) (h2 : StepOK t u q) : StepOK s u (r ++ q) := by
  obtain ⟨hInvT, hL1, hl1, hf1, hc1, hbyte1, hbit1, hpad1⟩ := h1
  obtain ⟨hInvU, hL2, hl2, hf2, hc2, hbyte2, hbit2, hpad2⟩ := h2
  refine ⟨hInvU, Nat.le_trans hL1 hL2, Nat.le_trans hl1 hl2, Nat.le_trans hf1 hf2,
    ?_, ?_, ?_, ?_⟩
  · rw [hc2, hc1, List.length_append]
    omega
  · intro i hi
    rw [hbyte2 i (Nat.lt_of_lt_of_le hi hf1), hbyte1 i hi]
  · intro k hk
    rw [hbit2 k (by omega), hbit1 k hk]
  · intro hpads
    obtain ⟨hpadT, hbits1⟩ := hpad1 hpads
    obtain ⟨hpadU, hbits2⟩ := hpad2 hpadT
    refine ⟨hpadU, fun j hj => ?_⟩
    rw [List.length_append] at hj
    rcases Nat.lt_or_ge j r.length with hjr | hjr
    · rw [hbit2 _ (by omega), hbits1 j hjr, getD_append_bool_lt _ _ _ hjr]
    · have hb := hbits2 (j - r.length) (by omega)
      rw [show committedBits s.len s.pos + j =
        committedBits t.len t.pos + (j - r.length) by omega]
      rw [hb, getD_append_bool_ge _ _ _ hjr]

/-- `WriteBytes` appends the bits of each byte in order. -/
lemma stepOK_WriteBytes (s : OStream) (l : List Nat) (h : Inv s) :
    StepOK s (s.WriteBytes l) (l.map byteBitsMSB).flatten := by
  induction l generalizing s with
  | nil => simpa [OStream.WriteBytes] using stepOK_refl s h
  | cons b rest ih =>
    have h1 := stepOK_WriteByte s b h
    have h2 := ih (s.WriteByte b) h1.1
    have h3 := StepOK.trans h1 h2
    simpa [OStream.WriteBytes, List.foldl_cons] using h3

/-! ## The WriteBits loops -/

lemma writeBitsByteLoopFuel_irrel (f1 : Nat) :
    ∀ (f2 : Nat) (s : OStream) (v : Nat) (n : Int), n.toNat ≤ f1 → n.toNat ≤ f2 →
      OStream.writeBitsByteLoopFuel f1 s v n = OStream.writeBitsByteLoopFuel f2 s v n := by
  induction f1 with
  | zero =>
    intro f2 s v n h1 h2
    cases f2 with
    | zero => rfl
    | succ g =>
      show (s, v, n) = OStream.writeBitsByteLoopFuel (g + 1) s v n
      rw [show OStream.writeBitsByteLoopFuel (g + 1) s v n =
        if 8 ≤ n then OStream.writeBitsByteLoopFuel g (s.WriteByte (v >>> 56))
          ((v <<< 8) % 2 ^ 64) (n - 8) else (s, v, n) from rfl]
      rw [if_neg (by omega)]
  | succ f ih =>
    intro f2 s v n h1 h2
    cases f2 with
    | zero =>
      show OStream.writeBitsByteLoopFuel (f + 1) s v n = (s, v, n)
      rw [show OStream.writeBitsByteLoopFuel (f + 1) s v n =
        if 8 ≤ n then OStream.writeBitsByteLoopFuel f (s.WriteByte (v >>> 56))
          ((v <<< 8) % 2 ^ 64) (n - 8) else (s, v, n) from rfl]
      rw [if_neg (by omega)]
    | succ g =>
      rw [show OStream.writeBitsByteLoopFuel (f + 1) s v n =
        if 8 ≤ n then OStream.writeBitsByteLoopFuel f (s.WriteByte (v >>> 56))
          ((v <<< 8) % 2 ^ 64) (n - 8) else (s, v, n) from rfl]
      rw [show OStream.writeBitsByteLoopFuel (g + 1) s v n =
        if 8 ≤ n then OStream.writeBitsByteLoopFuel g (s.WriteByte (v >>> 56))
          ((v <<< 8) % 2 ^ 64) (n - 8) else (s, v, n) from rfl]
      by_cases h8 : 8 ≤ n
      · rw [if_pos h8, if_pos h8]
        exact ih g _ _ _ (by omega) (by omega)
      · rw [if_neg h8, if_neg h8]

/-- The while-loop unfolding of the first WriteBits loop. -/
lemma writeBitsByteLoop_unfold (s : OStream) (v : Nat) (n : Int) :
    s.writeBitsByteLoop v n =
      if 8 ≤ n then
        (s.WriteByte (v >>> 56)).writeBitsByteLoop ((v <<< 8) % 2 ^ 64) (n - 8)
      else (s, v, n) := by
  by_cases h8 : 8 ≤ n
  · rw [if_pos h8]
    show OStream.writeBitsByteLoopFuel n.toNat s v n = _
    rw [show n.toNat = (n.toNat - 1) + 1 by omega]
    rw [show OStream.writeBitsByteLoopFuel ((n.toNat - 1) + 1) s v n =
      if 8 ≤ n then OStream.writeBitsByteLoopFuel (n.toNat - 1) (s.WriteByte (v >>> 56))
        ((v <<< 8) % 2 ^ 64) (n - 8) else (s, v, n) from rfl]
    rw [if_pos h8]
    exact writeBitsByteLoopFuel_irrel _ _ _ _ _ (by omega) (by omega)
  · rw [if_neg h8]
    show OStream.writeBitsByteLoopFuel n.toNat s v n = _
    cases hk : n.toNat with
    | zero => rfl
    | succ k =>
      rw [show OStream.writeBitsByteLoopFuel (k + 1) s v n =
        if 8 ≤ n then OStream.writeBitsByteLoopFuel k (s.WriteByte (v >>> 56))
          ((v <<< 8) % 2 ^ 64) (n - 8) else (s, v, n) from rfl]
      rw [if_neg h8]

lemma writeBitsBitLoopFuel_irrel (f1 : Nat) :
    ∀ (f2 : Nat) (s : OStream) (v : Nat) (n : Int), n.toNat ≤ f1 → n.toNat ≤ f2 →
      OStream.writeBitsBitLoopFuel f1 s v n = OStream.writeBitsBitLoopFuel f2 s v n := by
  induction f1 with
  | zero =>
    intro f2 s v n h1 h2
    cases f2 with
    | zero => rfl
    | succ g =>
      show (s, v, n) = OStream.writeBitsBitLoopFuel (g + 1) s v n
      rw [show OStream.writeBitsBitLoopFuel (g + 1) s v n =
        if 0 < n then OStream.writeBitsBitLoopFuel g (s.WriteBit ((v >>> 63) &&& 1))
          ((v <<< 1) % 2 ^ 64) (n - 1) else (s, v, n) from rfl]
      rw [if_neg (by omega)]
  | succ f ih =>
    intro f2 s v n h1 h2
    cases f2 with
    | zero =>
      show OStream.writeBitsBitLoopFuel (f + 1) s v n = (s, v, n)
      rw [show OStream.writeBitsBitLoopFuel (f + 1) s v n =
        if 0 < n then OStream.writeBitsBitLoopFuel f (s.WriteBit ((v >>> 63) &&& 1))
          ((v <<< 1) % 2 ^ 64) (n - 1) else (s, v, n) from rfl]
      rw [if_neg (by omega)]
    | succ g =>
      rw [show OStream.writeBitsBitLoopFuel (f + 1) s v n =
        if 0 < n then OStream.writeBitsBitLoopFuel f (s.WriteBit ((v >>> 63) &&& 1))
          ((v <<< 1) % 2 ^ 64) (n - 1) else (s, v, n) from rfl]
      rw [show OStream.writeBitsBitLoopFuel (g + 1) s v n =
        if 0 < n then OStream.writeBitsBitLoopFuel g (s.WriteBit ((v >>> 63) &&& 1))
          ((v <<< 1) % 2 ^ 64) (n - 1) else (s, v, n) from rfl]
      by_cases h0 : 0 < n
      · rw [if_pos h0, if_pos h0]
        exact ih g _ _ _ (by omega) (by omega)
      · rw [if_neg h0, if_neg h0]

/-- The while-loop unfolding of the second WriteBits loop. -/
lemma writeBitsBitLoop_unfold (s : OStream) (v : Nat) (n : Int) :
    s.writeBitsBitLoop v n =
      if 0 < n then
        (s.WriteBit ((v >>> 63) &&& 1)).writeBitsBitLoop ((v <<< 1) % 2 ^ 64) (n - 1)
      else (s, v, n) := by
  by_cases h0 : 0 < n
  · rw [if_pos h0]
    show OStream.writeBitsBitLoopFuel n.toNat s v n = _
    rw [show n.toNat = (n.toNat - 1) + 1 by omega]
    rw [show OStream.writeBitsBitLoopFuel ((n.toNat - 1) + 1) s v n =
      if 0 < n then OStream.writeBitsBitLoopFuel (n.toNat - 1) (s.WriteBit ((v >>> 63) &&& 1))
        ((v <<< 1) % 2 ^ 64) (n - 1) else (s, v, n) from rfl]
    rw [if_pos h0]
    exact writeBitsBitLoopFuel_irrel _ _ _ _ _ (by omega) (by omega)
  · rw [if_neg h0]
    show OStream.writeBitsBitLoopFuel n.toNat s v n = _
    cases hk : n.toNat with
    | zero => rfl
    | succ k =>
      rw [show OStream.writeBitsBitLoopFuel (k + 1) s v n =
        if 0 < n then OStream.writeBitsBitLoopFuel k (s.WriteBit ((v >>> 63) &&& 1))
          ((v <<< 1) % 2 ^ 64) (n - 1) else (s, v, n) from rfl]
      rw [if_neg h0]

lemma shiftLeft_mod_shiftLeft (v a b : Nat) :
    (((v <<< a) % 2 ^ 64) <<< b) % 2 ^ 64 = (v <<< (a + b)) % 2 ^ 64 := by
  rw [Nat.shiftLeft_eq, Nat.shiftLeft_eq, Nat.shiftLeft_eq, Nat.pow_add,
    Nat.mod_mul_mod, Nat.mul_assoc]

lemma topBitsMSB_succ8 (v m : Nat) (hv : v < 2 ^ 64) (hm : m ≤ 56) :
    topBitsMSB v (8 + m) = byteBitsMSB (v >>> 56) ++ topBitsMSB ((v <<< 8) % 2 ^ 64) m := by
  unfold topBitsMSB byteBitsMSB
  rw [List.range_add, List.map_append, List.map_map]
  have h1 : List.map (fun j => v.testBit (63 - j)) (List.range 8) =
      List.map (fun j => (v >>> 56).testBit (7 - j)) (List.range 8) := by
    refine List.map_congr_left fun j hj => ?_
    have hj8 : j < 8 := List.mem_range.mp hj
    rw [Nat.testBit_shiftRight]
    congr 1
    omega
  have h2 : List.map ((fun j => v.testBit (63 - j)) ∘ (fun x => 8 + x)) (List.range m) =
      List.map (fun j => ((v <<< 8) % 2 ^ 64).testBit (63 - j)) (List.range m) := by
    refine List.map_congr_left fun j hj => ?_
    have hjm : j < m := List.mem_range.mp hj
    simp only [Function.comp_apply]
    rw [Nat.testBit_mod_two_pow, Nat.testBit_shiftLeft]
    have e1 : 63 - j < 64 := by omega
    have e2 : 8 ≤ 63 - j := by omega
    have e3 : 63 - j - 8 = 63 - (8 + j) := by omega
    simp [e1, e2, e3]
  rw [h1, h2]

lemma topBitsMSB_succ1 (v m : Nat) (hm : m ≤ 7) :
    topBitsMSB v (1 + m) = [v.testBit 63] ++ topBitsMSB ((v <<< 1) % 2 ^ 64) m := by
  unfold topBitsMSB
  rw [List.range_add, List.map_append, List.map_map]
  have h1 : List.map (fun j => v.testBit (63 - j)) (List.range 1) = [v.testBit 63] := by
    simp [List.range_succ]
  have h2 : List.map ((fun j => v.testBit (63 - j)) ∘ (fun x => 1 + x)) (List.range m) =
      List.map (fun j => ((v <<< 1) % 2 ^ 64).testBit (63 - j)) (List.range m) := by
    refine List.map_congr_left fun j hj => ?_
    have hjm : j < m := List.mem_range.mp hj
    simp only [Function.comp_apply]
    rw [Nat.testBit_mod_two_pow, Nat.testBit_shiftLeft]
    have e1 : 63 - j < 64 := by omega
    have e2 : 1 ≤ 63 - j := by omega
    have e3 : 63 - j - 1 = 63 - (1 + j) := by omega
    simp [e1, e2, e3]
  rw [h1, h2]

/-- The whole-byte loop writes the top `8 * (numBits / 8)` bits and leaves
`v` shifted and `numBits` reduced accordingly. -/
lemma stepOK_writeBitsByteLoop (s : OStream) (v : Nat) (n : Int) (h : Inv s)
    (hv : v < 2 ^ 64) (hn : n ≤ 64) :
    StepOK s (s.writeBitsByteLoop v n).1 (topBitsMSB v (8 * (n.toNat / 8))) ∧
      (s.writeBitsByteLoop v n).2.1 = (v <<< (8 * (n.toNat / 8))) % 2 ^ 64 ∧
      (s.writeBitsByteLoop v n).2.2 = n - 8 * ((n.toNat / 8 : Nat) : Int) := by
  by_cases h8 : 8 ≤ n
  · have hrec : s.writeBitsByteLoop v n =
        (s.WriteByte (v >>> 56)).writeBitsByteLoop ((v <<< 8) % 2 ^ 64) (n - 8) := by
      rw [writeBitsByteLoop_unfold, if_pos h8]
    have hstep := stepOK_WriteByte s (v >>> 56) h
    have ih := stepOK_writeBitsByteLoop (s.WriteByte (v >>> 56)) ((v <<< 8) % 2 ^ 64)
      (n - 8) hstep.1 (Nat.mod_lt _ (by norm_num)) (by omega)
    have hq : (n - 8).toNat / 8 + 1 = n.toNat / 8 := by omega
    have hm56 : 8 * ((n - 8).toNat / 8) ≤ 56 := by omega
    have hsplit : topBitsMSB v (8 * (n.toNat / 8)) =
        byteBitsMSB (v >>> 56) ++ topBitsMSB ((v <<< 8) % 2 ^ 64) (8 * ((n - 8).toNat / 8)) := by
      rw [← topBitsMSB_succ8 v _ hv hm56]
      congr 1
      omega
    refine ⟨?_, ?_, ?_⟩
    · rw [hrec, hsplit]
      exact StepOK.trans hstep ih.1
    · rw [hrec, ih.2.1, shiftLeft_mod_shiftLeft]
      congr 2
      omega
    · rw [hrec, ih.2.2]
      omega
  · have hrec : s.writeBitsByteLoop v n = (s, v, n) := by
      rw [writeBitsByteLoop_unfold, if_neg h8]
    have hq : n.toNat / 8 = 0 := by omega
    rw [hrec, hq]
    refine ⟨by simpa [topBitsMSB] using stepOK_refl s h, ?_, by simp⟩
    rw [Nat.mul_zero, Nat.shiftLeft_zero]
    exact (Nat.mod_eq_of_lt hv).symm
termination_by n.toNat
decreasing_by simp_wf; omega

/-- The tail loop writes the top `numBits` bits of `v` one at a time. -/
lemma stepOK_writeBitsBitLoop (s : OStream) (v : Nat) (n : Int) (h : Inv s)
    (hv : v < 2 ^ 64) (hn : n ≤ 8) :
    StepOK s (s.writeBitsBitLoop v n).1 (topBitsMSB v n.toNat) := by
  by_cases h0 : 0 < n
  · have hrec : s.writeBitsBitLoop v n =
        (s.WriteBit ((v >>> 63) &&& 1)).writeBitsBitLoop ((v <<< 1) % 2 ^ 64) (n - 1) := by
      rw [writeBitsBitLoop_unfold, if_pos h0]
    have hbit : ((v >>> 63) &&& 1).testBit 0 = v.testBit 63 := by
      rw [Nat.testBit_and, Nat.testBit_shiftRight]
      simp
    have hstep := stepOK_WriteBit s ((v >>> 63) &&& 1) h
    rw [hbit] at hstep
    have ih := stepOK_writeBitsBitLoop (s.WriteBit ((v >>> 63) &&& 1)) ((v <<< 1) % 2 ^ 64)
      (n - 1) hstep.1 (Nat.mod_lt _ (by norm_num)) (by omega)
    have hsplit : topBitsMSB v n.toNat =
        [v.testBit 63] ++ topBitsMSB ((v <<< 1) % 2 ^ 64) (n - 1).toNat := by
      rw [← topBitsMSB_succ1 v _ (by omega)]
      congr 1
      omega
    rw [hrec, hsplit]
    exact StepOK.trans hstep ih
  · have hrec : s.writeBitsBitLoop v n = (s, v, n) := by
      rw [writeBitsBitLoop_unfold, if_neg h0]
    have hq : n.toNat = 0 := by omega
    rw [hrec, hq]
    simpa [topBitsMSB] using stepOK_refl s h
termination_by n.toNat
decreasing_by simp_wf; omega

lemma topBitsMSB_split (v m : Nat) (hv : v < 2 ^ 64) (hm : m ≤ 64) :
    topBitsMSB v (8 * (m / 8)) ++ topBitsMSB ((v <<< (8 * (m / 8))) % 2 ^ 64) (m % 8) =
      topBitsMSB v m := by
  set a := 8 * (m / 8) with ha
  set b := m % 8 with hb
  rw [show m = a + b by omega]
  unfold topBitsMSB
  rw [List.range_add, List.map_append, List.map_map]
  congr 1
  refine List.map_congr_left fun j hj => ?_
  have hjb : j < b := List.mem_range.mp hj
  simp only [Function.comp_apply]
  rw [Nat.testBit_mod_two_pow, Nat.testBit_shiftLeft]
  have e1 : 63 - j < 64 := by omega
  have e2 : a ≤ 63 - j := by omega
  have e3 : 63 - j - a = 63 - (a + j) := by omega
  simp [e1, e2, e3]

lemma topBitsMSB_eq_lowBitsMSB (v m : Nat) (hm : m ≤ 64) :
    topBitsMSB (((v % 2 ^ 64) <<< (64 - m)) % 2 ^ 64) m = lowBitsMSB v m := by
  unfold topBitsMSB lowBitsMSB
  refine List.map_congr_left fun j hj => ?_
  have hjm : j < m := List.mem_range.mp hj
  rw [Nat.testBit_mod_two_pow, Nat.testBit_shiftLeft, Nat.testBit_mod_two_pow]
  have e1 : 63 - j < 64 := by omega
  have e2 : 64 - m ≤ 63 - j := by omega
  have e3 : 63 - j - (64 - m) = m - 1 - j := by omega
  have e4 : m - 1 - j < 64 := by omega
  simp [e1, e2, e3, e4]

/-- `WriteBits` appends the lowest `numBits` bits of `v`, most significant
first, with the count clamped to 64 and non-positive counts writing
nothing. -/
lemma stepOK_WriteBits (s : OStream) (v : Nat) (n : Int) (h : Inv s) :
    StepOK s (s.WriteBits v n) (lowBitsMSB v (min n.toNat 64)) := by
  by_cases h0 : n = 0
  · subst h0
    have : s.WriteBits v 0 = s := by
      unfold OStream.WriteBits
      rw [if_pos rfl]
    rw [this]
    simpa [lowBitsMSB] using stepOK_refl s h
  · rcases Int.lt_or_lt_of_ne h0 with hneg | hpos
    · -- negative count: both loops are skipped and the stream is unchanged
      have hnb : ¬ (64 < n) := by omega
      have hrec : s.WriteBits v n = s := by
        unfold OStream.WriteBits
        rw [if_neg h0]
        simp only [if_neg hnb]
        rw [writeBitsByteLoop_unfold]
        rw [if_neg (by omega : ¬ (8 : Int) ≤ n)]
        rw [writeBitsBitLoop_unfold]
        rw [if_neg (by omega : ¬ (0 : Int) < n)]
      have hm : n.toNat = 0 := by omega
      rw [hrec, hm]
      simpa [lowBitsMSB] using stepOK_refl s h
    · set nb : Int := if 64 < n then 64 else n with hnb
      have hnb1 : 1 ≤ nb := by rw [hnb]; split <;> omega
      have hnb64 : nb ≤ 64 := by rw [hnb]; split <;> omega
      have hmnb : nb.toNat = min n.toNat 64 := by rw [hnb]; split <;> omega
      set v1 : Nat := ((v % 2 ^ 64) <<< (64 - nb).toNat) % 2 ^ 64 with hv1
      have hv1lt : v1 < 2 ^ 64 := Nat.mod_lt _ (by norm_num)
      have hrec : s.WriteBits v n =
          ((s.writeBitsByteLoop v1 nb).1.writeBitsBitLoop
            (s.writeBitsByteLoop v1 nb).2.1 (s.writeBitsByteLoop v1 nb).2.2).1 := by
        unfold OStream.WriteBits
        rw [if_neg h0]
      have hbyte := stepOK_writeBitsByteLoop s v1 nb h hv1lt hnb64
      have hn2 : (s.writeBitsByteLoop v1 nb).2.2 ≤ 8 := by
        rw [hbyte.2.2]
        omega
      have hbitl := stepOK_writeBitsBitLoop (s.writeBitsByteLoop v1 nb).1
        (s.writeBitsByteLoop v1 nb).2.1 (s.writeBitsByteLoop v1 nb).2.2
        hbyte.1.1 (by rw [hbyte.2.1]; exact Nat.mod_lt _ (by norm_num)) hn2
      have hcomb := StepOK.trans hbyte.1 hbitl
      rw [hbyte.2.1, hbyte.2.2] at hrec hcomb
      have htoNat : (nb - 8 * ((nb.toNat / 8 : Nat) : Int)).toNat = nb.toNat % 8 := by
        omega
      rw [htoNat] at hcomb
      have hlist : topBitsMSB v1 (8 * (nb.toNat / 8)) ++
          topBitsMSB ((v1 <<< (8 * (nb.toNat / 8))) % 2 ^ 64) (nb.toNat % 8) =
            lowBitsMSB v (min n.toNat 64) := by
        rw [topBitsMSB_split v1 nb.toNat hv1lt (by omega), ← hmnb, hv1]
        rw [show (64 - nb).toNat = 64 - nb.toNat by omega]
        exact topBitsMSB_eq_lowBitsMSB v nb.toNat (by omega)
      rw [hrec, ← hlist]
      exact hcomb

/-- Any single write call appends exactly its requested bits. -/
lemma stepOK_applyOp (s : OStream) (op : WriteOp) (h : Inv s) :
    StepOK s (applyOp s op) (requestedBits op) := by
  cases op with
  | bit v => exact stepOK_WriteBit s v h
  | byte v => exact stepOK_WriteByte s v h
  | bytes l => exact stepOK_WriteBytes s l h
  | bits v n => exact stepOK_WriteBits s v n h

/-- A sequence of write calls appends the concatenation of the requested
bits. -/
lemma stepOK_applyOps (s : OStream) (ops : List WriteOp) (h : Inv s) :
    StepOK s (applyOps s ops) (ops.map requestedBits).flatten := by
  induction ops generalizing s with
  | nil => simpa [applyOps] using stepOK_refl s h
  | cons op rest ih =>
    have h1 := stepOK_applyOp s op h
    have h2 := ih (applyOp s op) h1.1
    have h3 := StepOK.trans h1 h2
    simpa [applyOps, List.foldl_cons] using h3

/-- A computation that appends bits `r` extends `streamBits` by exactly
`r`, provided the starting stream had clean padding. -/
lemma streamBits_stepOK (s t : OStream) (r : List Bool) (hp : Pad s)
    (hst : StepOK s t r) : t.streamBits = s.streamBits ++ r := by
  obtain ⟨hInvT, hL, hl, hf, hc, hbyte, hbit, hpad⟩ := hst
  obtain ⟨hpadT, hbits⟩ := hpad hp
  unfold OStream.streamBits
  rw [hc, List.range_add, List.map_append, List.map_map]
  congr 1
  · exact List.map_congr_left fun k hk => hbit k (List.mem_range.mp hk)
  · refine List.ext_getElem (by simp) fun i h1 h2 => ?_
    simp only [List.length_map, List.length_range] at h1
    simp only [List.getElem_map, List.getElem_range, Function.comp_apply]
    rw [hbits i (by omega)]
    exact List.getD_eq_getElem _ _ h2

lemma Inv_Reset (s : OStream) (b : List Nat) : Inv (s.Reset b) := by
  refine ⟨by simp [OStream.Reset], ?_, ?_, ?_⟩
  · show (if 0 < b.length then 8 else 0) ≤ 8
    split <;> omega
  · show b.length = 0 ↔ (if 0 < b.length then 8 else 0) = 0
    split <;> omega
  · intro x hx
    simp only [OStream.Reset] at hx
    obtain ⟨y, -, rfl⟩ := List.mem_map.mp hx
    exact Nat.mod_lt _ (by omega)

lemma Pad_Reset (s : OStream) (b : List Nat) : Pad (s.Reset b) := by
  intro j hj8 hjp
  by_cases hb : 0 < b.length
  · have hp8 : (s.Reset b).pos = 8 := by simp [OStream.Reset, hb]
    rw [hp8] at hjp
    omega
  · have hb0 : b = [] := List.eq_nil_of_length_eq_zero (by omega)
    subst hb0
    simp [OStream.Reset]

lemma Inv_NewOStream (b : List Nat) : Inv (NewOStream b) := Inv_Reset _ b

lemma Pad_NewOStream (b : List Nat) : Pad (NewOStream b) := Pad_Reset _ b

lemma streamBits_empty : (NewOStream []).streamBits = [] := rfl

/-- Frame property of interleaved writes over a shared backing array: both
streams keep their invariants, keep sharing the array, their commit points
never drop below `C0`, and no bit below `C0` ever changes. -/
lemma runShared_frame (C0 : Nat) (tr : List (Bool × WriteOp)) :
    ∀ p : OStream × OStream, Inv p.1 → Inv p.2 → p.1.backing = p.2.backing →
      C0 ≤ committedBits p.1.len p.1.pos → C0 ≤ committedBits p.2.len p.2.pos →
      Inv (runShared p tr).1 ∧ Inv (runShared p tr).2 ∧
        (runShared p tr).1.backing = (runShared p tr).2.backing ∧
        C0 ≤ committedBits (runShared p tr).1.len (runShared p tr).1.pos ∧
        C0 ≤ committedBits (runShared p tr).2.len (runShared p tr).2.pos ∧
        ∀ k, k < C0 → bitAt (runShared p tr).1.backing k = bitAt p.1.backing k := by
  induction tr with
  | nil =>
    intro p h1 h2 hb hc1 hc2
    exact ⟨h1, h2, hb, hc1, hc2, fun k _ => rfl⟩
  | cons e rest ih =>
    intro p h1 h2 hb hc1 hc2
    have hrun : runShared p (e :: rest) = runShared (sideApply p e) rest := rfl
    rw [hrun]
    rcases e with ⟨side, op⟩
    cases side
    case false =>
      have hstep := stepOK_applyOp p.2 op h2
      obtain ⟨hInvB, hL, hl, hf, hc, hbyteF, hbitF, -⟩ := hstep
      have hside : sideApply p (false, op) =
          ({ p.1 with backing := (applyOp p.2 op).backing }, applyOp p.2 op) := by
        simp [sideApply]
      rw [hside]
      have e1 : Inv { p.1 with backing := (applyOp p.2 op).backing } := by
        obtain ⟨g1, g2, g3, -⟩ := h1
        refine ⟨?_, g2, g3, hInvB.2.2.2⟩
        show p.1.len ≤ (applyOp p.2 op).backing.length
        rw [hb] at g1
        omega
      have hc2n : C0 ≤ committedBits (applyOp p.2 op).len (applyOp p.2 op).pos := by
        omega
      obtain ⟨r1, r2, r3, r4, r5, r6⟩ :=
        ih ({ p.1 with backing := (applyOp p.2 op).backing }, applyOp p.2 op)
          e1 hInvB rfl hc1 hc2n
      refine ⟨r1, r2, r3, r4, r5, fun k hk => ?_⟩
      rw [r6 k hk]
      show bitAt (applyOp p.2 op).backing k = bitAt p.1.backing k
      rw [hbitF k (by omega), hb]
    case true =>
      have hstep := stepOK_applyOp p.1 op h1
      obtain ⟨hInvA, hL, hl, hf, hc, hbyteF, hbitF, -⟩ := hstep
      have hside : sideApply p (true, op) =
          (applyOp p.1 op, { p.2 with backing := (applyOp p.1 op).backing }) := by
        simp [sideApply]
      rw [hside]
      have e2 : Inv { p.2 with backing := (applyOp p.1 op).backing } := by
        obtain ⟨g1, g2, g3, -⟩ := h2
        refine ⟨?_, g2, g3, hInvA.2.2.2⟩
        show p.2.len ≤ (applyOp p.1 op).backing.length
        rw [← hb] at g1
        omega
      have hc1n : C0 ≤ committedBits (applyOp p.1 op).len (applyOp p.1 op).pos := by
        omega
      obtain ⟨r1, r2, r3, r4, r5, r6⟩ :=
        ih (applyOp p.1 op, { p.2 with backing := (applyOp p.1 op).backing })
          hInvA e2 rfl hc1n hc2
      refine ⟨r1, r2, r3, r4, r5, fun k hk => ?_⟩
      rw [r6 k hk]
      exact hbitF k (by omega)

/-! ## Claim theorems -/

/-- C1: For every sequence of WriteBit, WriteByte, WriteBits and WriteBytes
calls applied to an ostream that starts empty, the bits stored in the
buffer (reading each byte most-significant-bit-first and excluding the
padding at offsets at or beyond `pos` in the last byte) are exactly the
concatenation of the bits the calls requested, in call order. -/
theorem ostream_write_sequence_roundtrip (ops : List WriteOp) :
    (applyOps (NewOStream []) ops).streamBits = (ops.map requestedBits).flatten := by
  have h := stepOK_applyOps (NewOStream []) ops (Inv_NewOStream [])
  have h2 := streamBits_stepOK _ _ _ (Pad_NewOStream []) h
  rw [h2, streamBits_empty, List.nil_append]

example : (applyOps (NewOStream []) [WriteOp.bit 1, WriteOp.bits 5 3,
    WriteOp.byte 7]).streamBits =
    [true, true, false, true, false, false, false, false, false, true, true, true] := by
  decide

example : (applyOps (NewOStream []) [WriteOp.bit 1, WriteOp.bits 5 3,
    WriteOp.byte 7]).streamBits =
    ([WriteOp.bit 1, WriteOp.bits 5 3, WriteOp.byte 7].map requestedBits).flatten := by
  decide

/-- C3 counterexample: with the default blockSize of 2 hours, setting
bufferPast to 3 hours yields a configuration that violates the spec's
validity requirement, yet construction succeeds and hands back exactly
that configuration — the constructor and the setters have no error result
and perform no validation (the Go source carries a TODO to add the
check). -/
theorem options_invalid_config_not_rejected :
    ¬ SpecValidConfig (NewDatabaseOptions.BufferPast (3 * Hour)) ∧
      (NewDatabaseOptions.BufferPast (3 * Hour)).GetBufferPast = 3 * Hour ∧
      (NewDatabaseOptions.BufferPast (3 * Hour)).GetBlockSize = 2 * Hour := by
  refine ⟨?_, rfl, rfl⟩
  intro hvalid
  have h1 := hvalid.1
  rw [show (NewDatabaseOptions.BufferPast (3 * Hour)).bufferPast = 3 * Hour from rfl,
    show (NewDatabaseOptions.BufferPast (3 * Hour)).blockSize = 2 * Hour from rfl] at h1
  norm_num [Hour, Minute, Second, Millisecond, Microsecond, Nanosecond] at h1

/-- C3 (amended): construction of the options performs no validation at
all: NewDatabaseOptions and its setters accept every combination of
durations — including bufferPast or bufferFuture at or above blockSize and
non-positive values — and return a configuration carrying exactly those
values, with no error path. -/
theorem options_construction_total (bs bp bf bd rp : Int) :
    (((((NewDatabaseOptions.BlockSize bs).BufferPast bp).BufferFuture bf).BufferDrain
        bd).RetentionPeriod rp).GetBlockSize = bs ∧
    (((((NewDatabaseOptions.BlockSize bs).BufferPast bp).BufferFuture bf).BufferDrain
        bd).RetentionPeriod rp).GetBufferPast = bp ∧
    (((((NewDatabaseOptions.BlockSize bs).BufferPast bp).BufferFuture bf).BufferDrain
        bd).RetentionPeriod rp).GetBufferFuture = bf ∧
    (((((NewDatabaseOptions.BlockSize bs).BufferPast bp).BufferFuture bf).BufferDrain
        bd).RetentionPeriod rp).GetBufferDrain = bd ∧
    (((((NewDatabaseOptions.BlockSize bs).BufferPast bp).BufferFuture bf).BufferDrain
        bd).RetentionPeriod rp).GetRetentionPeriod = rp :=
  ⟨rfl, rfl, rfl, rfl, rfl⟩

/-- C4: WriteBits with a count above 64 produces exactly the same stream
state as WriteBits with 64: the over-length request is clamped silently
and there is no error path. -/
theorem writeBits_clamped_above_64 (s : OStream) (v : Nat) (n : Int)
    (hn : 64 < n) : s.WriteBits v n = s.WriteBits v 64 := by
  unfold OStream.WriteBits
  rw [if_neg (show ¬ n = 0 by omega), if_neg (show ¬ (64 : Int) = 0 by norm_num),
    if_pos hn, if_neg (show ¬ (64 : Int) < 64 by norm_num)]

/-- C4 witness: a concrete over-length request. -/
theorem writeBits_clamped_above_64_witness :
    (NewOStream []).WriteBits 5 65 = (NewOStream []).WriteBits 5 64 :=
  writeBits_clamped_above_64 (NewOStream []) 5 65 (by norm_num)

/-- C7: WriteBits with numBits = 0 is a no-op: rawBuffer, Len and pos are
all unchanged. -/
theorem writeBits_zero_noop (s : OStream) (v : Nat) :
    (s.WriteBits v 0).rawBuffer = s.rawBuffer ∧ (s.WriteBits v 0).Len = s.Len ∧
      (s.WriteBits v 0).pos = s.pos := by
  have h : s.WriteBits v 0 = s := by
    unfold OStream.WriteBits
    rw [if_pos rfl]
  rw [h]
  exact ⟨rfl, rfl, rfl⟩

/-- C8: NewDatabaseOptions carries the documented defaults: blockSize 2h,
bufferPast 10m, bufferFuture 2m, bufferDrain 1m, retentionPeriod 48h and
maxFlushRetries 3. -/
theorem newDatabaseOptions_defaults :
    NewDatabaseOptions.GetBlockSize = 2 * Hour ∧
    NewDatabaseOptions.GetBufferPast = 10 * Minute ∧
    NewDatabaseOptions.GetBufferFuture = 2 * Minute ∧
    NewDatabaseOptions.GetBufferDrain = 1 * Minute ∧
    NewDatabaseOptions.GetRetentionPeriod = 48 * Hour ∧
    NewDatabaseOptions.GetMaxFlushRetries = 3 := by
  refine ⟨rfl, rfl, rfl, rfl, ?_, rfl⟩
  norm_num [NewDatabaseOptions, DbOptions.GetRetentionPeriod,
    DbOptions.EncodingTszPooled, defaultRetentionPeriod, Hour, Minute, Second,
    Millisecond, Microsecond, Nanosecond]

/-- C9: WriteBits with a negative count terminates and leaves the stream
unchanged — the clamp does not cover negative counts, but both loops are
skipped (and in Go the 64-bit shift by more than 63 merely zeroes the
local copy of `v`). -/
theorem writeBits_negative_noop (s : OStream) (v : Nat) (n : Int)
    (hn : n < 0) :
    (s.WriteBits v n).rawBuffer = s.rawBuffer ∧ (s.WriteBits v n).Len = s.Len ∧
      (s.WriteBits v n).pos = s.pos := by
  have h : s.WriteBits v n = s := by
    unfold OStream.WriteBits
    rw [if_neg (by omega)]
    simp only [if_neg (by omega : ¬ (64 : Int) < n)]
    rw [writeBitsByteLoop_unfold]
    rw [if_neg (by omega : ¬ (8 : Int) ≤ n)]
    rw [writeBitsBitLoop_unfold]
    rw [if_neg (by omega : ¬ (0 : Int) < n)]
  rw [h]
  exact ⟨rfl, rfl, rfl⟩

/-- C9 witness: a concrete negative count. -/
theorem writeBits_negative_noop_witness :
    ((NewOStream []).WriteBits 5 (-3)).rawBuffer = (NewOStream []).rawBuffer ∧
      ((NewOStream []).WriteBits 5 (-3)).Len = (NewOStream []).Len ∧
      ((NewOStream []).WriteBits 5 (-3)).pos = (NewOStream []).pos :=
  writeBits_negative_noop (NewOStream []) 5 (-3) (by norm_num)

/-- C10: every stream reachable from NewOStream or Reset (Reset ignores the
prior state, so NewOStream is the Reset of the trivial state) by write
calls satisfies pos ≤ 8, pos = 0 exactly on the empty buffer, the slice
fits its array, and whenever pos > 0 the index Len - 1 that fillUnused
dereferences is in bounds — so no write can fail. -/
theorem ostream_reachable_invariant (t : OStream) (b : List Nat)
    (ops : List WriteOp) :
    (applyOps (t.Reset b) ops).pos ≤ 8 ∧
    ((applyOps (t.Reset b) ops).len = 0 ↔ (applyOps (t.Reset b) ops).pos = 0) ∧
    (applyOps (t.Reset b) ops).Len ≤ (applyOps (t.Reset b) ops).backing.length ∧
    ((applyOps (t.Reset b) ops).pos = 0 ∨
      (1 ≤ (applyOps (t.Reset b) ops).Len ∧
        (applyOps (t.Reset b) ops).lastIndex < (applyOps (t.Reset b) ops).Len)) := by
  obtain ⟨g1, g2, g3, -⟩ := (stepOK_applyOps (t.Reset b) ops (Inv_Reset t b)).1
  have hLen : (applyOps (t.Reset b) ops).Len = (applyOps (t.Reset b) ops).len := rfl
  have hLast : (applyOps (t.Reset b) ops).lastIndex =
      (applyOps (t.Reset b) ops).Len - 1 := rfl
  refine ⟨g2, g3, by rw [hLen]; exact g1, ?_⟩
  by_cases h0 : (applyOps (t.Reset b) ops).pos = 0
  · exact Or.inl h0
  · right
    have hne : (applyOps (t.Reset b) ops).len ≠ 0 := fun hc => h0 (g3.mp hc)
    omega

/-- C2: after `c := s.Clone()` (which shares the backing array), any
interleaved sequence of further writes to `c` and to `s` never changes a
bit of either copy that was already committed at clone time (at a byte
index and bit offset below Len and pos at clone time): every write only
touches the shared array at or above the current commit point of the
writer, which never drops below the clone-time commit point. -/
theorem ostream_clone_commits_immutable (s : OStream) (h : Inv s)
    (tr : List (Bool × WriteOp)) (k : Nat)
    (hk : k < committedBits s.len s.pos) :
    bitAt (runShared (s, s.Clone) tr).1.backing k = bitAt s.backing k ∧
    bitAt (runShared (s, s.Clone) tr).2.backing k = bitAt s.backing k := by
  have hc : s.Clone = s := rfl
  obtain ⟨-, -, r3, -, -, r6⟩ := runShared_frame (committedBits s.len s.pos) tr
    (s, s.Clone) h (by rw [hc]; exact h) rfl (Nat.le_refl _)
    (by rw [hc])
  exact ⟨r6 k hk, by rw [← r3]; exact r6 k hk⟩

/-- C2 witness: a stream holding one committed bit, cloned, with the clone
then writing a byte; bit 0 of both copies is unchanged. -/
theorem ostream_clone_commits_immutable_witness :
    bitAt (runShared ((NewOStream []).WriteBit 1, ((NewOStream []).WriteBit 1).Clone)
        [(false, WriteOp.byte 5)]).1.backing 0 =
      bitAt ((NewOStream []).WriteBit 1).backing 0 ∧
    bitAt (runShared ((NewOStream []).WriteBit 1, ((NewOStream []).WriteBit 1).Clone)
        [(false, WriteOp.byte 5)]).2.backing 0 =
      bitAt ((NewOStream []).WriteBit 1).backing 0 :=
  ostream_clone_commits_immutable ((NewOStream []).WriteBit 1) (by decide)
    [(false, WriteOp.byte 5)] 0 (by decide)

/-- C5: on a reachable stream whose pos is in 0..7, WriteByte yields the
same committed bit sequence as eight WriteBit calls feeding the bits of
the byte from most significant to least significant. -/
theorem writeByte_equals_eight_writeBits (s : OStream) (v : Nat)
    (h : Inv s) (hp : Pad s) (hpos : s.pos < 8) :
    (s.WriteByte v).streamBits =
      ((((((((s.WriteBit (v >>> 7)).WriteBit (v >>> 6)).WriteBit (v >>> 5)).WriteBit
        (v >>> 4)).WriteBit (v >>> 3)).WriteBit (v >>> 2)).WriteBit (v >>> 1)).WriteBit
        (v >>> 0)).streamBits := by
  have hL := streamBits_stepOK s _ _ hp (stepOK_WriteByte s v h)
  have s0 := stepOK_WriteBit s (v >>> 7) h
  have s1 := stepOK_WriteBit _ (v >>> 6) s0.1
  have s2 := stepOK_WriteBit _ (v >>> 5) s1.1
  have s3 := stepOK_WriteBit _ (v >>> 4) s2.1
  have s4 := stepOK_WriteBit _ (v >>> 3) s3.1
  have s5 := stepOK_WriteBit _ (v >>> 2) s4.1
  have s6 := stepOK_WriteBit _ (v >>> 1) s5.1
  have s7 := stepOK_WriteBit _ (v >>> 0) s6.1
  have hchain := StepOK.trans s0 (StepOK.trans s1 (StepOK.trans s2 (StepOK.trans s3
    (StepOK.trans s4 (StepOK.trans s5 (StepOK.trans s6 s7))))))
  have hR := streamBits_stepOK s _ _ hp hchain
  rw [hL, hR]
  congr 1

/-- C5 witness: a stream with one bit written, then WriteByte 171 versus
the eight WriteBit calls. -/
theorem writeByte_equals_eight_writeBits_witness :
    (((NewOStream []).WriteBit 1).WriteByte 171).streamBits =
      ((((((((((NewOStream []).WriteBit 1).WriteBit (171 >>> 7)).WriteBit (171 >>> 6)).WriteBit (171 >>> 5)).WriteBit (171 >>> 4)).WriteBit (171 >>> 3)).WriteBit (171 >>> 2)).WriteBit (171 >>> 1)).WriteBit (171 >>> 0)).streamBits :=
  writeByte_equals_eight_writeBits ((NewOStream []).WriteBit 1) 171
    (by decide) (by decide) (by decide)

/-- C6: Reset with a non-empty byte slice forces pos to 8; consequently
the first write that produces at least one bit appends a new byte — the
resulting buffer still starts with the supplied bytes, unchanged, and its
length strictly exceeds the input's. -/
theorem reset_nonempty_first_write_appends (s : OStream) (b : List Nat)
    (hb : b ≠ []) (h256 : ∀ x ∈ b, x < 256) :
    (s.Reset []).pos = 0 ∧ (s.Reset b).pos = 8 ∧
    ∀ op : WriteOp, requestedBits op ≠ [] →
      (applyOp (s.Reset b) op).rawBuffer.take b.length = b ∧
      b.length < (applyOp (s.Reset b) op).Len := by
  have hbl : 0 < b.length := List.length_pos.mpr hb
  have hpos8 : (s.Reset b).pos = 8 := by
    show (if 0 < b.length then 8 else 0) = 8
    rw [if_pos hbl]
  refine ⟨rfl, hpos8, fun op hreq => ?_⟩
  obtain ⟨⟨htl, htp, htiff, -⟩, hL, hl, hf, hc, hbyte, hbit, -⟩ :=
    stepOK_applyOp (s.Reset b) op (Inv_Reset s b)
  have hrl : (s.Reset b).len = b.length := rfl
  have hfb : fullBytes (s.Reset b) = b.length := by
    unfold fullBytes
    rw [hpos8, hrl, if_pos rfl]
  have hCr : committedBits (s.Reset b).len (s.Reset b).pos = 8 * b.length := by
    unfold committedBits
    rw [hpos8, hrl, if_neg (by omega)]
    omega
  have hreqpos : 0 < (requestedBits op).length := List.length_pos.mpr hreq
  rw [hCr] at hc
  have hlen' : b.length < (applyOp (s.Reset b) op).len := by
    unfold committedBits at hc
    by_cases h0 : (applyOp (s.Reset b) op).len = 0
    · rw [if_pos h0] at hc
      omega
    · rw [if_neg h0] at hc
      omega
  have hLen : (applyOp (s.Reset b) op).Len = (applyOp (s.Reset b) op).len := rfl
  refine ⟨?_, by omega⟩
  unfold OStream.rawBuffer
  rw [List.take_take, Nat.min_eq_left (by omega)]
  refine List.ext_getElem ?_ fun i h1 h2 => ?_
  · rw [List.length_take]
    omega
  · rw [List.getElem_take]
    have hib : i < b.length := h2
    have e1 : (applyOp (s.Reset b) op).backing.getD i 0 =
        (s.Reset b).backing.getD i 0 := hbyte i (by omega)
    have e2 : (s.Reset b).backing.getD i 0 = b[i] := by
      show (b.map (· % 256)).getD i 0 = b[i]
      rw [List.getD_eq_getElem _ _ (by simpa using hib), List.getElem_map]
      exact Nat.mod_eq_of_lt (h256 _ (List.getElem_mem hib))
    rw [← List.getD_eq_getElem (applyOp (s.Reset b) op).backing 0 (by omega), e1, e2]

/-- C6 witness: Reset on [7], then a single WriteBit. -/
theorem reset_nonempty_first_write_appends_witness :
    ((OStream.mk [] 0 0).Reset []).pos = 0 ∧
      ((OStream.mk [] 0 0).Reset [7]).pos = 8 ∧
      (applyOp ((OStream.mk [] 0 0).Reset [7]) (WriteOp.bit 1)).rawBuffer.take
        [7].length = [7] ∧
      [7].length < (applyOp ((OStream.mk [] 0 0).Reset [7]) (WriteOp.bit 1)).Len := by
  have h := reset_nonempty_first_write_appends (OStream.mk [] 0 0) [7]
    (by decide) (by decide)
  exact ⟨h.1, h.2.1, h.2.2 (WriteOp.bit 1) (by decide)⟩

end M3
